import Mathlib

/-!
# Verification of the protocol-rewriting pre-processing script

The program under verification reads a text document, extracts protocol
names with the two patterns ` protocol (.*?) {` and ` protocol (.*?) : `,
deduplicates the concatenated capture lists keeping first occurrences, and
then, for each name `D` in that order, replaces every literal occurrence of
` protocol D {` by ` protocol D{ }` ++ newline ++ `extension D {`.

Documents are modelled as `List Char`.  The regex engine's behaviour on the
two concrete patterns is modelled directly: scanning left to right for the
literal marker ` protocol `, then a lazy (shortest-first) capture of
non-newline characters terminated by the literal terminator, with the scan
resuming after the end of a successful match (non-overlapping matches), and
advancing one character after a failed match attempt.  `str.replace` is the
usual leftmost non-overlapping replace-all for a non-empty pattern.
-/

namespace DocsPre

/-- The literal marker ` protocol ` that both extraction patterns begin with
(`re.findall(r' protocol (.*?) {', str)` / `re.findall(r' protocol (.*?) : ', str)`). -/
def protoMark : List Char := (" protocol ").data

/-- Terminator of pattern A: the literal ` {`. -/
def termA : List Char := (" \x7b").data

/-- Terminator of pattern B: the literal ` : `. -/
def termB : List Char := (" : ").data

/-- The lazy capture `(.*?)` followed by the literal `term`: returns the
shortest run of non-newline characters after which `term` matches.  Returns
`none` when no such run exists (end of input or a newline is reached before
the terminator), in which case the regex match attempt at this start
position fails. -/
def lazyCapture (term : List Char) : List Char → Option (List Char)
  | [] => if term.isPrefixOf ([] : List Char) then some [] else none
  | c :: cs =>
    if term.isPrefixOf (c :: cs) then
      some []
    else if c = '\n' then
      none
    else
      (lazyCapture term cs).map (fun p => c :: p)

/-- The scanning loop of `re.findall(r' protocol (.*?)<term>', str)`: walk
the text left to right; whenever the literal marker ` protocol ` starts at
the current position and a lazy capture terminated by `term` succeeds after
it, emit the capture and resume after the end of the whole match — marker,
capture and terminator (non-overlapping matches); otherwise advance one
character. -/
def findAll (term : List Char) : List Char → List (List Char)
  | [] => []
  | c :: cs =>
    if protoMark.isPrefixOf (c :: cs) then
      match lazyCapture term ((c :: cs).drop protoMark.length) with
      | some cap =>
        cap :: findAll term
          ((c :: cs).drop (protoMark.length + cap.length + term.length))
      | none => findAll term cs
    else findAll term cs
termination_by text => text.length
decreasing_by
  · have hm : protoMark.length = 10 := rfl
    simp only [List.length_drop, List.length_cons]
    omega
  · simp
  · simp

/-- `allProtocols = re.findall(r' protocol (.*?) {', str)` — the Pattern-A
capture list. -/
def findA (text : List Char) : List (List Char) := findAll termA text

/-- `moreProtocols = re.findall(r' protocol (.*?) : ', str)` — the Pattern-B
capture list. -/
def findB (text : List Char) : List (List Char) := findAll termB text

/-- Worker for `list(dict.fromkeys(...))`: keep each value's first
occurrence, in order, skipping values already seen. -/
def dedupGo (seen : List (List Char)) : List (List Char) → List (List Char)
  | [] => []
  | x :: xs => if x ∈ seen then dedupGo seen xs else x :: dedupGo (x :: seen) xs

/-- `list(dict.fromkeys(l))`: first-occurrence-order deduplication. -/
def pydedup (l : List (List Char)) : List (List Char) := dedupGo [] l

/-- The match string of the rewrite rule for name `D`:
`current = " protocol " + declaration + " \x7b"`. -/
def pat (D : List Char) : List Char := protoMark ++ D ++ (" \x7b").data

/-- The replacement string of the rewrite rule for name `D`:
`new = " protocol " + declaration + "\x7b \x7d" + "\n" + "extension " + declaration + " \x7b"`. -/
def repl (D : List Char) : List Char :=
  protoMark ++ D ++ ("\x7b \x7d").data ++ ['\n'] ++ ("extension ").data ++ D ++ (" \x7b").data

/-- Python `str.replace(s, t)` for a non-empty pattern `s`: leftmost,
non-overlapping replace-all.  (The script only ever calls it with the
non-empty pattern ` protocol D {`; the empty-pattern arm is never reached.) -/
def pyReplace (s t text : List Char) : List Char :=
  match s, text with
  | [], _ => text
  | _ :: _, [] => []
  | a :: s', c :: cs =>
    if (a :: s').isPrefixOf (c :: cs) then
      t ++ pyReplace (a :: s') t (cs.drop s'.length)
    else
      c :: pyReplace (a :: s') t cs
termination_by text.length
decreasing_by
  · simp only [List.length_drop, List.length_cons]
    omega
  · simp

/-- One iteration of the substitution loop: `str = str.replace(current, new)`. -/
def applyRule (text : List Char) (D : List Char) : List Char :=
  pyReplace (pat D) (repl D) text

/-- `data = list(dict.fromkeys(allProtocols + moreProtocols))`: the ordered
list of distinct names the substitution loop iterates over. -/
def names (text : List Char) : List (List Char) :=
  pydedup (findA text ++ findB text)

/-- The whole transformation (`rewriteProtocols` in the specification): the
pure text-to-text part of `main`, from the document that was read to the
document that is written/returned. -/
def rewriteProtocols (text : List Char) : List Char :=
  (names text).foldl applyRule text

/-- The fragments of a text between the leftmost non-overlapping occurrences
of a (non-empty) pattern `s` — the split that `pyReplace` joins back with
the replacement string. -/
def pySplit (s : List Char) (text : List Char) : List (List Char) :=
  match s, text with
  | [], _ => [text]
  | _ :: _, [] => [[]]
  | a :: s', c :: cs =>
    if (a :: s').isPrefixOf (c :: cs) then
      [] :: pySplit (a :: s') (cs.drop s'.length)
    else
      match pySplit (a :: s') cs with
      | [] => [[c]]
      | p :: ps => (c :: p) :: ps
termination_by text.length
decreasing_by
  · simp only [List.length_drop, List.length_cons]
    omega
  · simp

/-- Structure of a successful lazy capture: capture ++ terminator is a
prefix of the input, the capture contains no newline, and (for a non-empty
terminator) the capture does not contain the terminator as an infix — the
capture stops at the first occurrence of the terminator. -/
theorem lazyCapture_spec (term : List Char) :
    ∀ cs cap, lazyCapture term cs = some cap →
      ((cap ++ term) <+: cs) ∧ ('\n' ∉ cap) ∧ (term ≠ [] → ¬ term <:+: cap) := by
  intro cs
  induction cs with
  | nil =>
    intro cap h
    simp only [lazyCapture] at h
    split at h
    · rename_i hpre
      have hterm : term = [] := List.prefix_nil.mp (List.isPrefixOf_iff_prefix.mp hpre)
      cases h
      exact ⟨by simp [hterm], by simp, fun hne => absurd hterm hne⟩
    · cases h
  | cons c cs ih =>
    intro cap h
    simp only [lazyCapture] at h
    split at h
    · rename_i hpre
      cases h
      refine ⟨by simpa using List.isPrefixOf_iff_prefix.mp hpre, by simp, ?_⟩
      intro hne hin
      exact hne (List.infix_nil.mp hin)
    · split at h
      · cases h
      · rename_i hpre hnl
        match hlc : lazyCapture term cs with
        | none => rw [hlc] at h; cases h
        | some cap' =>
          rw [hlc] at h
          simp only [Option.map_some', Option.some.injEq] at h
          subst h
          obtain ⟨hp, hnl', hninf⟩ := ih cap' hlc
          refine ⟨?_, ?_, ?_⟩
          · have : c :: (cap' ++ term) <+: c :: cs := List.cons_prefix_cons.mpr ⟨rfl, hp⟩
            simpa using this
          · intro hmem
            rcases List.mem_cons.mp hmem with h | h
            · exact hnl h.symm
            · exact hnl' h
          · intro hne hin
            obtain ⟨u, v, huv⟩ := hin
            match u with
            | [] =>
              -- the terminator would be a prefix of the capture, hence of
              -- the remaining text, contradicting the failed check here
              have hterm : term <+: c :: cap' := ⟨v, by simpa using huv⟩
              have hcap2 : c :: cap' <+: c :: cs :=
                List.cons_prefix_cons.mpr ⟨rfl, (List.prefix_append cap' term).trans hp⟩
              have : term.isPrefixOf (c :: cs) :=
                List.isPrefixOf_iff_prefix.mpr (hterm.trans hcap2)
              exact hpre this
            | u0 :: u' =>
              have h2 : u' ++ term ++ v = cap' := by
                have h3 := huv
                simp only [List.cons_append, List.cons.injEq] at h3
                simpa using h3.2
              exact hninf hne ⟨u', v, h2⟩

/-- Unfolding: the scanner on the empty text. -/
theorem findAll_nil (term : List Char) : findAll term [] = [] := by
  rw [findAll]

/-- Unfolding: marker present and lazy capture succeeds — emit and resume
after the match. -/
theorem findAll_cons_some (term : List Char) (c : Char) (cs cap : List Char)
    (hpre : protoMark.isPrefixOf (c :: cs) = true)
    (hlc : lazyCapture term (List.drop protoMark.length (c :: cs)) = some cap) :
    findAll term (c :: cs)
      = cap :: findAll term
          ((c :: cs).drop (protoMark.length + cap.length + term.length)) := by
  rw [findAll]
  simp only [hpre, reduceDIte, reduceIte, if_true]
  split
  · rename_i cap' heq
    rw [hlc] at heq
    cases heq
    rfl
  · rename_i heq
    rw [hlc] at heq
    cases heq

/-- Unfolding: marker present but the lazy capture fails — advance one
character. -/
theorem findAll_cons_none (term : List Char) (c : Char) (cs : List Char)
    (hpre : protoMark.isPrefixOf (c :: cs) = true)
    (hlc : lazyCapture term (List.drop protoMark.length (c :: cs)) = none) :
    findAll term (c :: cs) = findAll term cs := by
  rw [findAll]
  simp only [hpre, reduceDIte, reduceIte, if_true]
  split
  · rename_i cap' heq
    rw [hlc] at heq
    cases heq
  · rfl

/-- Unfolding: marker absent — advance one character. -/
theorem findAll_cons_not (term : List Char) (c : Char) (cs : List Char)
    (hpre : ¬ protoMark.isPrefixOf (c :: cs) = true) :
    findAll term (c :: cs) = findAll term cs := by
  rw [findAll]
  simp [hpre]

/-- Soundness of the scanner: every capture corresponds to an actual
occurrence of marker ++ capture ++ terminator in the text, contains no
newline, and does not contain the terminator. -/
theorem findAll_sound (term : List Char) (hterm : term ≠ []) (text : List Char) :
    ∀ cap ∈ findAll term text,
      ((protoMark ++ cap ++ term) <:+: text) ∧ '\n' ∉ cap ∧ ¬ term <:+: cap := by
  induction text using findAll.induct term with
  | case1 =>
    intro cap h
    rw [findAll_nil] at h
    cases h
  | case2 c cs hpre cap' hlc ih =>
    intro cap hmem
    rw [findAll_cons_some term c cs cap' hpre hlc] at hmem
    obtain ⟨w, hw⟩ := List.isPrefixOf_iff_prefix.mp hpre
    have hwd : List.drop protoMark.length (c :: cs) = w := by
      rw [← hw, List.drop_left]
    rw [hwd] at hlc
    obtain ⟨hp, hnl, hninf⟩ := lazyCapture_spec term w cap' hlc
    obtain ⟨w2, hw2⟩ := hp
    have hrest : List.drop (protoMark.length + cap'.length + term.length) (c :: cs) = w2 := by
      have hcomm : protoMark.length + cap'.length + term.length
          = protoMark.length + (cap'.length + term.length) := by omega
      rw [hcomm, ← List.drop_drop, hwd, ← hw2]
      have : cap'.length + term.length = (cap' ++ term).length := by
        simp
      rw [this, List.drop_left]
    have htext : c :: cs = protoMark ++ cap' ++ term ++ w2 := by
      rw [← hw, ← hw2]
      simp
    rcases List.mem_cons.mp hmem with rfl | hmem
    · exact ⟨⟨[], w2, by simp [htext]⟩, hnl, hninf hterm⟩
    · rw [hrest] at hmem
      have hsub : w2 <:+ c :: cs := ⟨protoMark ++ cap' ++ term, by simp [htext]⟩
      rw [← hrest] at hmem
      obtain ⟨h1, h2, h3⟩ := ih cap hmem
      rw [hrest] at h1
      exact ⟨h1.trans hsub.isInfix, h2, h3⟩
  | case3 c cs hpre hlc ih =>
    intro cap hmem
    rw [findAll_cons_none term c cs hpre hlc] at hmem
    obtain ⟨h1, h2, h3⟩ := ih cap hmem
    exact ⟨h1.trans (show cs <:+ c :: cs from ⟨[c], rfl⟩).isInfix, h2, h3⟩
  | case4 c cs hpre ih =>
    intro cap hmem
    rw [findAll_cons_not term c cs hpre] at hmem
    obtain ⟨h1, h2, h3⟩ := ih cap hmem
    exact ⟨h1.trans (show cs <:+ c :: cs from ⟨[c], rfl⟩).isInfix, h2, h3⟩

/-- If no newline-free capture makes marker ++ capture ++ terminator an
infix of the text, the scanner finds nothing. -/
theorem findAll_eq_nil (term : List Char) (hterm : term ≠ []) (text : List Char)
    (h : ∀ cap : List Char, '\n' ∉ cap → ¬ (protoMark ++ cap ++ term) <:+: text) :
    findAll term text = [] := by
  cases hfa : findAll term text with
  | nil => rfl
  | cons x xs =>
    have hx : x ∈ findAll term text := by rw [hfa]; exact List.mem_cons_self x xs
    obtain ⟨h1, h2, _⟩ := findAll_sound term hterm text x hx
    exact absurd h1 (h x h2)

/-- Membership in the dedup worker. -/
theorem mem_dedupGo (l : List (List Char)) :
    ∀ seen x, x ∈ dedupGo seen l ↔ x ∈ l ∧ x ∉ seen := by
  induction l with
  | nil => intro seen x; simp [dedupGo]
  | cons y ys ih =>
    intro seen x
    by_cases hy : y ∈ seen
    · rw [dedupGo, if_pos hy, ih]
      constructor
      · rintro ⟨h1, h2⟩
        exact ⟨List.mem_cons_of_mem _ h1, h2⟩
      · rintro ⟨h1, h2⟩
        rcases List.mem_cons.mp h1 with rfl | h1
        · exact absurd hy h2
        · exact ⟨h1, h2⟩
    · rw [dedupGo, if_neg hy]
      constructor
      · intro h1
        rcases List.mem_cons.mp h1 with rfl | h1
        · exact ⟨List.mem_cons_self _ _, hy⟩
        · obtain ⟨ha, hb⟩ := (ih _ _).mp h1
          exact ⟨List.mem_cons_of_mem _ ha, fun hx => hb (List.mem_cons_of_mem _ hx)⟩
      · rintro ⟨h1, h2⟩
        rcases List.mem_cons.mp h1 with rfl | h1
        · exact List.mem_cons_self _ _
        · by_cases hxy : x = y
          · subst hxy; exact List.mem_cons_self _ _
          · refine List.mem_cons_of_mem _ ((ih _ _).mpr ⟨h1, fun hx => ?_⟩)
            rcases List.mem_cons.mp hx with h | h
            · exact hxy h
            · exact h2 h

/-- The dedup worker returns a duplicate-free list. -/
theorem dedupGo_nodup (l : List (List Char)) : ∀ seen, (dedupGo seen l).Nodup := by
  induction l with
  | nil => intro seen; simp [dedupGo]
  | cons y ys ih =>
    intro seen
    by_cases hy : y ∈ seen
    · rw [dedupGo, if_pos hy]; exact ih seen
    · rw [dedupGo, if_neg hy]
      refine List.nodup_cons.mpr ⟨fun hmem => ?_, ih (y :: seen)⟩
      exact ((mem_dedupGo ys (y :: seen) y).mp hmem).2 (List.mem_cons_self _ _)

/-- The dedup worker returns a sublist (so relative order is preserved). -/
theorem dedupGo_sublist (l : List (List Char)) : ∀ seen, List.Sublist (dedupGo seen l) l := by
  induction l with
  | nil => intro seen; simp [dedupGo]
  | cons y ys ih =>
    intro seen
    by_cases hy : y ∈ seen
    · rw [dedupGo, if_pos hy]
      exact (ih seen).trans (List.sublist_cons_self y ys)
    · rw [dedupGo, if_neg hy]
      exact (ih (y :: seen)).cons₂ y

/-- `pydedup` keeps exactly the values of the input list. -/
theorem mem_pydedup (l : List (List Char)) (x : List Char) :
    x ∈ pydedup l ↔ x ∈ l := by
  rw [pydedup, mem_dedupGo]
  simp

/-- `pydedup` is duplicate-free. -/
theorem pydedup_nodup (l : List (List Char)) : (pydedup l).Nodup := dedupGo_nodup l []

/-- `pydedup` is a sublist of the input: first-occurrence order is kept. -/
theorem pydedup_sublist (l : List (List Char)) : List.Sublist (pydedup l) l := dedupGo_sublist l []

/-- The split is never the empty list of fragments. -/
theorem pySplit_ne_nil (s text : List Char) : pySplit s text ≠ [] := by
  induction s, text using pySplit.induct with
  | case1 text => rw [pySplit]; simp
  | case2 a s' => rw [pySplit]; simp
  | case3 a s' c cs hpre ih =>
    rw [pySplit]
    simp [hpre]
  | case4 a s' c cs hpre hnil ih => exact absurd hnil ih
  | case5 a s' c cs hpre p ps hsp ih =>
    rw [pySplit]
    simp only [if_neg hpre, hsp]
    simp

/-- The first fragment of the split is a prefix of the text. -/
theorem pySplit_head_prefix (s text : List Char) :
    ∀ p ps, pySplit s text = p :: ps → p <+: text := by
  induction s, text using pySplit.induct with
  | case1 text =>
    intro p ps h
    rw [pySplit] at h
    cases h
    exact List.prefix_refl _
  | case2 a s' =>
    intro p ps h
    rw [pySplit] at h
    cases h
    exact List.nil_prefix
  | case3 a s' c cs hpre ih =>
    intro p ps h
    rw [pySplit] at h
    simp only [if_pos hpre] at h
    cases h
    exact List.nil_prefix
  | case4 a s' c cs hpre hnil ih => exact absurd hnil (pySplit_ne_nil _ _)
  | case5 a s' c cs hpre p ps hsp ih =>
    intro q qs h
    rw [pySplit] at h
    simp only [if_neg hpre, hsp] at h
    cases h
    exact List.cons_prefix_cons.mpr ⟨rfl, ih p ps hsp⟩

/-- Joining a non-trivial fragment list with the separator. -/
theorem intercalate_cons_of_ne_nil (t x : List Char) (l : List (List Char)) (h : l ≠ []) :
    List.intercalate t (x :: l) = x ++ t ++ List.intercalate t l := by
  cases l with
  | nil => exact absurd rfl h
  | cons y ys => simp [List.intercalate, List.intersperse]

/-- Pulling a character out of the first fragment of a join. -/
theorem intercalate_cons_head (t : List Char) (c : Char) (p : List Char)
    (ps : List (List Char)) :
    List.intercalate t ((c :: p) :: ps) = c :: List.intercalate t (p :: ps) := by
  cases ps with
  | nil => simp [List.intercalate]
  | cons q qs =>
    rw [intercalate_cons_of_ne_nil t (c :: p) (q :: qs) (by simp),
        intercalate_cons_of_ne_nil t p (q :: qs) (by simp)]
    simp

/-- `str.replace` joins the fragments of the text between the leftmost
non-overlapping occurrences of the pattern with the replacement string:
every occurrence present in the text is replaced. -/
theorem pyReplace_eq_intercalate (t : List Char) (s text : List Char) :
    pyReplace s t text = List.intercalate t (pySplit s text) := by
  induction s, text using pySplit.induct with
  | case1 text =>
    rw [pyReplace, pySplit]
    simp [List.intercalate]
  | case2 a s' =>
    rw [pyReplace, pySplit]
    simp [List.intercalate]
  | case3 a s' c cs hpre ih =>
    rw [pyReplace, pySplit]
    simp only [if_pos hpre]
    rw [intercalate_cons_of_ne_nil t [] _ (pySplit_ne_nil _ _), ih]
    simp
  | case4 a s' c cs hpre hnil ih => exact absurd hnil (pySplit_ne_nil _ _)
  | case5 a s' c cs hpre p ps hsp ih =>
    rw [pyReplace, pySplit]
    simp only [if_neg hpre, hsp]
    rw [intercalate_cons_head, ← hsp, ih]

/-- No fragment of the split contains an occurrence of the pattern: a
replace-all pass replaces every occurrence present in the text. -/
theorem pySplit_not_infix (s text : List Char) (hs : s ≠ []) :
    ∀ p ∈ pySplit s text, ¬ s <:+: p := by
  induction s, text using pySplit.induct with
  | case1 text => exact absurd rfl hs
  | case2 a s' =>
    intro p hp
    rw [pySplit] at hp
    simp only [List.mem_singleton] at hp
    subst hp
    intro hin
    exact hs (List.infix_nil.mp hin)
  | case3 a s' c cs hpre ih =>
    intro p hp
    rw [pySplit] at hp
    simp only [if_pos hpre] at hp
    rcases List.mem_cons.mp hp with rfl | hp
    · intro hin
      exact hs (List.infix_nil.mp hin)
    · exact ih hs p hp
  | case4 a s' c cs hpre hnil ih => exact absurd hnil (pySplit_ne_nil _ _)
  | case5 a s' c cs hpre p ps hsp ih =>
    intro q hq
    rw [pySplit] at hq
    simp only [if_neg hpre, hsp] at hq
    rcases List.mem_cons.mp hq with rfl | hq
    · intro hin
      obtain ⟨u, v, huv⟩ := hin
      match u with
      | [] =>
        -- an occurrence at the head would contradict the failed prefix test
        have hqcs : p <+: cs := pySplit_head_prefix _ _ p ps hsp
        have hsp2 : (a :: s') <+: c :: p := ⟨v, by simpa using huv⟩
        have : (a :: s') <+: c :: cs :=
          hsp2.trans (List.cons_prefix_cons.mpr ⟨rfl, hqcs⟩)
        exact hpre (List.isPrefixOf_iff_prefix.mpr this)
      | u0 :: u' =>
        have h2 : u' ++ (a :: s') ++ v = p := by
          have h3 := huv
          simp only [List.cons_append, List.cons.injEq] at h3
          simpa using h3.2
        exact ih hs p (by rw [hsp]; exact List.mem_cons_self _ _) ⟨u', v, h2⟩
    · exact ih hs q (by rw [hsp]; exact List.mem_cons_of_mem _ hq)

/-- `str.replace` with a replacement at least as long as the pattern never
shortens the text. -/
theorem length_le_pyReplace (t : List Char) :
    ∀ s text : List Char, s.length ≤ t.length →
      text.length ≤ (pyReplace s t text).length := by
  intro s text
  induction s, text using pySplit.induct with
  | case1 text => intro _; rw [pyReplace]
  | case2 a s' => intro _; rw [pyReplace]
  | case3 a s' c cs hpre ih =>
    intro hst
    rw [pyReplace]
    simp only [if_pos hpre, List.length_append, List.length_cons]
    have hrec := ih hst
    have hdl : (cs.drop s'.length).length = cs.length - s'.length := List.length_drop _ _
    have hple : s'.length + 1 ≤ cs.length + 1 :=
      by simpa using (List.isPrefixOf_iff_prefix.mp hpre).length_le
    simp only [List.length_cons] at hst
    omega
  | case4 a s' c cs hpre hnil ih =>
    intro hst
    rw [pyReplace]
    simp only [if_neg hpre, List.length_cons]
    have hrec := ih hst
    omega
  | case5 a s' c cs hpre p ps hsp ih =>
    intro hst
    rw [pyReplace]
    simp only [if_neg hpre, List.length_cons]
    have hrec := ih hst
    omega

/-- Length of the match string: 12 characters plus the name. -/
theorem pat_length (D : List Char) : (pat D).length = D.length + 12 := by
  have h1 : protoMark.length = 10 := rfl
  have h2 : ((" \x7b").data).length = 2 := rfl
  simp only [pat, List.length_append, h1, h2]
  omega

/-- Length of the replacement string: 26 characters plus the name twice. -/
theorem repl_length (D : List Char) : (repl D).length = 2 * D.length + 26 := by
  have h1 : protoMark.length = 10 := rfl
  have h2 : ((" \x7b").data).length = 2 := rfl
  have h3 : (("\x7b \x7d").data).length = 3 := rfl
  have h4 : (("extension ").data).length = 10 := rfl
  simp only [repl, List.length_append, h1, h2, h3, h4, List.length_cons,
    List.length_nil]
  omega

/-- The match string of a rule is never empty. -/
theorem pat_ne_nil (D : List Char) : pat D ≠ [] := by
  intro h
  have hlen := pat_length D
  rw [h] at hlen
  simp at hlen

/-- The replacement string of a rule is strictly longer than its match
string. -/
theorem pat_length_lt_repl (D : List Char) : (pat D).length < (repl D).length := by
  rw [pat_length, repl_length]
  omega

/-- The replacement string, split at its one line break: the emptied
declaration ` protocol D{ }`, a newline, then the extension header
`extension D {`. -/
theorem repl_split (D : List Char) :
    repl D = (protoMark ++ D ++ ("\x7b \x7d").data)
      ++ '\n' :: (("extension ").data ++ D ++ (" \x7b").data) := by
  simp [repl]

/-- For a newline-free name the replacement string contains exactly one
line break. -/
theorem repl_count_newline (D : List Char) (h : '\n' ∉ D) :
    (repl D).count '\n' = 1 := by
  have h1 : protoMark.count '\n' = 0 := by decide
  have h2 : ((" \x7b").data).count '\n' = 0 := by decide
  have h3 : (("\x7b \x7d").data).count '\n' = 0 := by decide
  have h4 : (("extension ").data).count '\n' = 0 := by decide
  have h5 : (['\n'] : List Char).count '\n' = 1 := by decide
  have hD : D.count '\n' = 0 := List.count_eq_zero.mpr h
  simp only [repl, List.count_append, h1, h2, h3, h4, h5, hD]

/-- A single rule application never shortens the document. -/
theorem length_le_applyRule (D text : List Char) :
    text.length ≤ (applyRule text D).length :=
  length_le_pyReplace (repl D) (pat D) text (Nat.le_of_lt (pat_length_lt_repl D))

/-- Claim C1 (corrected — counterexample): the substitution does not insert
a space before `extension`.  On the input `"foo protocol Sample \x7b bar \x7d"`
the output differs from the spec's expected
`"foo protocol Sample\x7b \x7d\n extension Sample \x7b bar \x7d"`: the code produces
`\nextension`, not `\n extension`. -/
theorem claim1_counterexample :
    rewriteProtocols (("foo protocol Sample \x7b bar \x7d").data)
      ≠ (("foo protocol Sample\x7b \x7d\n extension Sample \x7b bar \x7d").data) := by
  have h : rewriteProtocols (("foo protocol Sample \x7b bar \x7d").data)
      = (("foo protocol Sample\x7b \x7d\nextension Sample \x7b bar \x7d").data) := by
    simp [rewriteProtocols, names, findA, findB, findAll, lazyCapture, pydedup,
      dedupGo, applyRule, pyReplace, pat, repl, protoMark, termA, termB]
  rw [h]
  decide

/-- Claim C1 (corrected — amended claim): for every distinct extracted name
`D`, the substitution step replaces every literal occurrence of
` protocol D {` in the current document text (all occurrences, not just the
first) with ` protocol D{ }\nextension D {` — with NO space before
`extension`; in particular, on input `"foo protocol Sample \x7b bar \x7d"` the
output equals `"foo protocol Sample\x7b \x7d\nextension Sample \x7b bar \x7d"`, and on
an input with two occurrences of the literal both are replaced. -/
theorem claim1_theorem :
    (∀ D text : List Char,
      applyRule text D
        = pyReplace (protoMark ++ D ++ ((" \x7b").data))
            (protoMark ++ D ++ (("\x7b \x7d").data) ++ ['\n']
              ++ (("extension ").data) ++ D ++ ((" \x7b").data)) text)
    ∧ rewriteProtocols (("foo protocol Sample \x7b bar \x7d").data)
        = (("foo protocol Sample\x7b \x7d\nextension Sample \x7b bar \x7d").data)
    ∧ rewriteProtocols ((" protocol X \x7b protocol X \x7b").data)
        = ((" protocol X\x7b \x7d\nextension X \x7b protocol X\x7b \x7d\nextension X \x7b").data) := by
  refine ⟨fun D text => rfl, ?_, ?_⟩
  · simp [rewriteProtocols, names, findA, findB, findAll, lazyCapture, pydedup,
      dedupGo, applyRule, pyReplace, pat, repl, protoMark, termA, termB]
  · simp [rewriteProtocols, names, findA, findB, findAll, lazyCapture, pydedup,
      dedupGo, applyRule, pyReplace, pat, repl, protoMark, termA, termB]

/-- Claim C2 (corrected — counterexample): on input
` protocol OnlyColon : SomeBase { }` the output is NOT the unchanged input:
Pattern A lazily captures `OnlyColon : SomeBase` (its run stops only at the
first ` {`), and that name's literal target does occur, so a substitution
fires. -/
theorem claim2_counterexample :
    rewriteProtocols ((" protocol OnlyColon : SomeBase \x7b \x7d").data)
      ≠ ((" protocol OnlyColon : SomeBase \x7b \x7d").data) := by
  have h : rewriteProtocols ((" protocol OnlyColon : SomeBase \x7b \x7d").data)
      = ((" protocol OnlyColon : SomeBase\x7b \x7d\nextension OnlyColon : SomeBase \x7b \x7d").data) := by
    simp [rewriteProtocols, names, findA, findB, findAll, lazyCapture, pydedup,
      dedupGo, applyRule, pyReplace, pat, repl, protoMark, termA, termB]
  rw [h]
  decide

/-- Claim C2 (corrected — amended claim): on input
` protocol OnlyColon : SomeBase { }` the extracted names are
`OnlyColon : SomeBase` (Pattern A) followed by `OnlyColon` (Pattern B); the
colon-form name `OnlyColon` itself produces zero substitutions (its literal
target ` protocol OnlyColon {` never occurs), but the Pattern-A name does
match, so the output is
` protocol OnlyColon : SomeBase{ }\nextension OnlyColon : SomeBase { }`
rather than the unchanged input. -/
theorem claim2_theorem :
    names ((" protocol OnlyColon : SomeBase \x7b \x7d").data)
        = [("OnlyColon : SomeBase").data, ("OnlyColon").data]
    ∧ rewriteProtocols ((" protocol OnlyColon : SomeBase \x7b \x7d").data)
        = ((" protocol OnlyColon : SomeBase\x7b \x7d\nextension OnlyColon : SomeBase \x7b \x7d").data)
    ∧ applyRule
        ((" protocol OnlyColon : SomeBase\x7b \x7d\nextension OnlyColon : SomeBase \x7b \x7d").data)
        (("OnlyColon").data)
        = ((" protocol OnlyColon : SomeBase\x7b \x7d\nextension OnlyColon : SomeBase \x7b \x7d").data) := by
  refine ⟨?_, ?_, ?_⟩
  · simp [names, findA, findB, findAll, lazyCapture, pydedup, dedupGo,
      protoMark, termA, termB]
  · simp [rewriteProtocols, names, findA, findB, findAll, lazyCapture, pydedup,
      dedupGo, applyRule, pyReplace, pat, repl, protoMark, termA, termB]
  · simp [applyRule, pyReplace, pat, repl, protoMark]

/-- Claim C3 (confirmed): the ordered list of distinct names processed by
the substitution loop is the Pattern-A captures in document order followed
by the Pattern-B captures in document order, deduplicated keeping only the
first occurrence of each value in first-occurrence order (`pydedup` is
duplicate-free, is an order-preserving sublist of the concatenation, keeps
exactly its values, and keeps the first occurrence); in particular, on a
document where ` protocol X {` occurs three times verbatim, the name `X` is
processed exactly once. -/
theorem claim3_theorem :
    (∀ text : List Char, names text = pydedup (findA text ++ findB text))
    ∧ (∀ l : List (List Char), (pydedup l).Nodup)
    ∧ (∀ l : List (List Char), List.Sublist (pydedup l) l)
    ∧ (∀ (l : List (List Char)) (x : List Char), x ∈ pydedup l ↔ x ∈ l)
    ∧ pydedup [("X").data, ("Y").data, ("X").data] = [("X").data, ("Y").data]
    ∧ findA ((" protocol X \x7b a protocol X \x7b b protocol X \x7b c").data)
        = [("X").data, ("X").data, ("X").data]
    ∧ names ((" protocol X \x7b a protocol X \x7b b protocol X \x7b c").data) = [("X").data]
    ∧ (names ((" protocol X \x7b a protocol X \x7b b protocol X \x7b c").data)).count (("X").data) = 1 := by
  refine ⟨fun text => rfl, pydedup_nodup, pydedup_sublist,
    fun l x => mem_pydedup l x, by decide, ?_, ?_, ?_⟩
  · simp [findA, findAll, lazyCapture, protoMark, termA]
  · simp [names, findA, findB, findAll, lazyCapture, pydedup, dedupGo,
      protoMark, termA, termB]
  · simp [names, findA, findB, findAll, lazyCapture, pydedup, dedupGo,
      protoMark, termA, termB]

/-- Claim C4 (corrected — counterexample): the invariant fails in the final
document.  On input ` protocol { protocol { protocol {` the single
extracted name is `{ protocol` (a legitimate Pattern-A capture), and after
the whole run the returned document still contains the literal substring
` protocol { protocol {`, i.e. ` protocol D {` for the processed name `D`:
the replacement itself re-creates an occurrence across a seam. -/
theorem claim4_counterexample :
    names ((" protocol \x7b protocol \x7b protocol \x7b").data) = [("\x7b protocol").data]
    ∧ (pat (("\x7b protocol").data))
        <:+: rewriteProtocols ((" protocol \x7b protocol \x7b protocol \x7b").data) := by
  constructor
  · simp [names, findA, findB, findAll, lazyCapture, pydedup, dedupGo,
      protoMark, termA, termB]
  · have h : rewriteProtocols ((" protocol \x7b protocol \x7b protocol \x7b").data)
        = ((" protocol \x7b protocol\x7b \x7d\nextension \x7b protocol \x7b protocol \x7b").data) := by
      simp [rewriteProtocols, names, findA, findB, findAll, lazyCapture, pydedup,
        dedupGo, applyRule, pyReplace, pat, repl, protoMark, termA, termB]
    rw [h]
    decide

/-- Claim C4 (corrected — amended claim): each rule application replaces, in
one leftmost non-overlapping pass, every occurrence of ` protocol D {`
present in the current document — the document is exactly the s-free
fragments re-joined with the replacement string, and no fragment still
contains ` protocol D {`.  However, the replacement can itself re-create
occurrences of ` protocol D {` (for this or an earlier processed name), so
the invariant need not hold of the final returned document. -/
theorem claim4_theorem :
    ∀ D text : List Char,
      applyRule text D = List.intercalate (repl D) (pySplit (pat D) text)
      ∧ ∀ p ∈ pySplit (pat D) text, ¬ (pat D) <:+: p :=
  fun D text =>
    ⟨pyReplace_eq_intercalate (repl D) (pat D) text,
     pySplit_not_infix (pat D) text (pat_ne_nil D)⟩

/-- Witness for C4 at a concrete input: the rule for `X` on
` protocol X { y` is the fragment join, and the first fragment (the empty
one) contains no occurrence of the match string. -/
theorem claim4_witness :
    (applyRule ((" protocol X \x7b y").data) (("X").data)
      = List.intercalate (repl (("X").data))
          (pySplit (pat (("X").data)) ((" protocol X \x7b y").data)))
    ∧ ¬ (pat (("X").data)) <:+: ([] : List Char) := by
  refine ⟨(claim4_theorem (("X").data) ((" protocol X \x7b y").data)).1,
    (claim4_theorem (("X").data) ((" protocol X \x7b y").data)).2 [] ?_⟩
  have h : pySplit (pat (("X").data)) ((" protocol X \x7b y").data)
      = [[], ((" y").data)] := by
    simp [pySplit, pat, protoMark]
  rw [h]
  simp

/-- Claim C5 (corrected — counterexample): an extracted name can contain the
other pattern's terminator.  On input ` protocol A : B {`, Pattern A
captures `A : B`, which contains the literal ` : `. -/
theorem claim5_counterexample :
    findA ((" protocol A : B \x7b").data) = [("A : B").data]
    ∧ ((" : ").data) <:+: (("A : B").data) := by
  constructor
  · simp [findA, findAll, lazyCapture, protoMark, termA]
  · decide

/-- Claim C5 (corrected — amended claim): every name extracted by a pattern
does not contain that pattern's own terminator — a Pattern-A capture never
contains ` {` and a Pattern-B capture never contains ` : ` (the capture
stops at the first occurrence of its own terminator) — but it may contain
the other pattern's terminator. -/
theorem claim5_theorem :
    (∀ text cap : List Char, cap ∈ findA text → ¬ ((" \x7b").data) <:+: cap)
    ∧ (∀ text cap : List Char, cap ∈ findB text → ¬ ((" : ").data) <:+: cap) := by
  constructor
  · intro text cap hmem
    exact (findAll_sound termA (by decide) text cap hmem).2.2
  · intro text cap hmem
    exact (findAll_sound termB (by decide) text cap hmem).2.2

/-- Witness for C5 at a concrete input: the capture `Sample` from
`foo protocol Sample { bar }` contains no ` {`. -/
theorem claim5_witness : ¬ ((" \x7b").data) <:+: (("Sample").data) := by
  have hmem : ("Sample").data ∈ findA (("foo protocol Sample \x7b bar \x7d").data) := by
    simp [findA, findAll, lazyCapture, protoMark, termA]
  exact claim5_theorem.1 (("foo protocol Sample \x7b bar \x7d").data) (("Sample").data) hmem

/-- Claim C6 (corrected — counterexample): an extracted empty name does NOT
always fail to match its literal substitution target.  On input
` protocol  {` (two spaces), Pattern A captures the empty string, whose
target ` protocol  {` is the input itself, so the rule fires and changes
the document. -/
theorem claim6_counterexample :
    findA ((" protocol  \x7b").data) = [([] : List Char)]
    ∧ rewriteProtocols ((" protocol  \x7b").data) ≠ ((" protocol  \x7b").data) := by
  constructor
  · simp [findA, findAll, lazyCapture, protoMark, termA]
  · have h : rewriteProtocols ((" protocol  \x7b").data)
        = ((" protocol \x7b \x7d\nextension  \x7b").data) := by
      simp [rewriteProtocols, names, findA, findB, findAll, lazyCapture, pydedup,
        dedupGo, applyRule, pyReplace, pat, repl, protoMark, termA, termB]
    rw [h]
    decide

/-- Claim C6 (corrected — amended claim): no validation is performed on
extracted names and an empty (or whitespace-only) name is not an error —
but such a name is processed like any other: its literal target
` protocol D {` can occur (for the empty name the target ` protocol  {` is
exactly the text it was extracted from), in which case the rule does change
the document, producing ` protocol { }\nextension  {`. -/
theorem claim6_theorem :
    rewriteProtocols ((" protocol  \x7b").data) = ((" protocol \x7b \x7d\nextension  \x7b").data)
    ∧ applyRule ((" protocol  \x7b").data) ([] : List Char)
        = ((" protocol \x7b \x7d\nextension  \x7b").data) := by
  constructor
  · simp [rewriteProtocols, names, findA, findB, findAll, lazyCapture, pydedup,
      dedupGo, applyRule, pyReplace, pat, repl, protoMark, termA, termB]
  · simp [applyRule, pyReplace, pat, repl, protoMark]

/-- Claim C7 (confirmed): for every input text containing no substring
matching ` protocol <name> {` and none matching ` protocol <name> : ` (for
any newline-free name run), the transformation returns the input unchanged;
finding zero protocol names is not an error. -/
theorem claim7_theorem (text : List Char)
    (h : ∀ n : List Char, '\n' ∉ n →
      ¬ (protoMark ++ n ++ termA) <:+: text ∧ ¬ (protoMark ++ n ++ termB) <:+: text) :
    rewriteProtocols text = text := by
  have hA : findA text = [] :=
    findAll_eq_nil termA (by decide) text (fun c hc => (h c hc).1)
  have hB : findB text = [] :=
    findAll_eq_nil termB (by decide) text (fun c hc => (h c hc).2)
  show (pydedup (findA text ++ findB text)).foldl applyRule text = text
  rw [hA, hB]
  rfl

/-- Witness for C7 at a concrete input: `hello` matches neither pattern
(both pattern shapes are longer than the text), so it is returned
unchanged. -/
theorem claim7_witness : rewriteProtocols (("hello").data) = (("hello").data) := by
  apply claim7_theorem
  intro n hn
  have h10 : protoMark.length = 10 := rfl
  have h5 : ((("hello").data)).length = 5 := rfl
  constructor
  · intro hin
    have hlen := hin.length_le
    have h2 : termA.length = 2 := rfl
    simp only [List.length_append, h10, h2, h5] at hlen
    omega
  · intro hin
    have hlen := hin.length_le
    have h3 : termB.length = 3 := rfl
    simp only [List.length_append, h10, h3, h5] at hlen
    omega

set_option maxRecDepth 40000 in
/-- Claim C8 (corrected — counterexample): in the final output a rewritten
occurrence need not be followed by its extension header.  On input
` protocol A protocol E { protocol E {` the names `A protocol E` and `E`
are processed in that order; the later rule for `E` rewrites INSIDE the
earlier insertion's `extension A protocol E {` part, so the output still
begins with the rewritten ` protocol A protocol E{ }` but contains no
occurrence of the full two-part form for `A protocol E` at all. -/
theorem claim8_counterexample :
    names ((" protocol A protocol E \x7b protocol E \x7b").data)
        = [("A protocol E").data, ("E").data]
    ∧ (protoMark ++ ("A protocol E").data ++ (("\x7b \x7d").data))
        <+: rewriteProtocols ((" protocol A protocol E \x7b protocol E \x7b").data)
    ∧ ¬ (repl (("A protocol E").data))
        <:+: rewriteProtocols ((" protocol A protocol E \x7b protocol E \x7b").data) := by
  have h : rewriteProtocols ((" protocol A protocol E \x7b protocol E \x7b").data)
      = ((" protocol A protocol E\x7b \x7d\nextension A protocol E\x7b \x7d\nextension E \x7b protocol E\x7b \x7d\nextension E \x7b").data) := by
    simp [rewriteProtocols, names, findA, findB, findAll, lazyCapture, pydedup,
      dedupGo, applyRule, pyReplace, pat, repl, protoMark, termA, termB]
  refine ⟨?_, ?_, ?_⟩
  · simp [names, findA, findB, findAll, lazyCapture, pydedup, dedupGo,
      protoMark, termA, termB]
  · rw [h]
    decide
  · rw [h]
    simp only [repl, protoMark]
    decide

/-- Claim C8 (corrected — amended claim): each single rule application
produces the fragment join in which every rewritten occurrence is exactly
` protocol D{ }` followed by one line break and one `extension D {` (for a
newline-free name the replacement contains exactly one line break); but a
rule for a later name may rewrite inside an earlier insertion, so the
adjacency need not survive to the final output. -/
theorem claim8_theorem :
    ∀ D text : List Char, '\n' ∉ D →
      applyRule text D
        = List.intercalate
            ((protoMark ++ D ++ (("\x7b \x7d").data))
              ++ '\n' :: ((("extension ").data) ++ D ++ ((" \x7b").data)))
            (pySplit (pat D) text)
      ∧ (repl D).count '\n' = 1 := by
  intro D text hD
  constructor
  · rw [← repl_split]
    exact pyReplace_eq_intercalate (repl D) (pat D) text
  · exact repl_count_newline D hD

/-- Witness for C8 at a concrete input: the rule for `X` on
` protocol X {`. -/
theorem claim8_witness :
    '\n' ∉ (("X").data)
    ∧ (applyRule ((" protocol X \x7b").data) (("X").data)
        = List.intercalate
            ((protoMark ++ ("X").data ++ (("\x7b \x7d").data))
              ++ '\n' :: ((("extension ").data) ++ ("X").data ++ ((" \x7b").data)))
            (pySplit (pat (("X").data)) ((" protocol X \x7b").data))
      ∧ (repl (("X").data)).count '\n' = 1) :=
  ⟨by decide, claim8_theorem (("X").data) ((" protocol X \x7b").data) (by decide)⟩

/-- Claim C9 (confirmed): extracted names never contain a line break — both
extraction patterns match only within a single line — so a protocol
declaration whose name and terminating ` {` are separated by a line break
is neither extracted nor rewritten (concretely, ` protocol A\nB {` is
returned unchanged). -/
theorem claim9_theorem :
    (∀ text cap : List Char, cap ∈ findA text ++ findB text → '\n' ∉ cap)
    ∧ rewriteProtocols ((" protocol A\nB \x7b").data) = ((" protocol A\nB \x7b").data) := by
  constructor
  · intro text cap hmem
    rcases List.mem_append.mp hmem with hm | hm
    · exact (findAll_sound termA (by decide) text cap hm).2.1
    · exact (findAll_sound termB (by decide) text cap hm).2.1
  · simp [rewriteProtocols, names, findA, findB, findAll, lazyCapture, pydedup,
      dedupGo, applyRule, pyReplace, pat, repl, protoMark, termA, termB]

/-- Witness for C9 at a concrete input: the capture `Sample` contains no
line break. -/
theorem claim9_witness : '\n' ∉ (("Sample").data) := by
  have hmem : ("Sample").data
      ∈ findA (("foo protocol Sample \x7b bar \x7d").data)
        ++ findB (("foo protocol Sample \x7b bar \x7d").data) := by
    simp [findA, findB, findAll, lazyCapture, protoMark, termA, termB]
  exact claim9_theorem.1 (("foo protocol Sample \x7b bar \x7d").data) (("Sample").data) hmem

/-- Claim C10 (confirmed): the returned text is never shorter than the
input — every rule's replacement string is strictly longer than its match
string, a single rule application never shortens the document, and the
whole run never shortens the document. -/
theorem claim10_theorem :
    (∀ D : List Char, (pat D).length < (repl D).length)
    ∧ (∀ D text : List Char, text.length ≤ (applyRule text D).length)
    ∧ (∀ text : List Char, text.length ≤ (rewriteProtocols text).length) := by
  refine ⟨pat_length_lt_repl, fun D text => length_le_applyRule D text, ?_⟩
  intro text
  show text.length ≤ ((names text).foldl applyRule text).length
  generalize names text = l
  induction l generalizing text with
  | nil => simp
  | cons D l ih =>
    rw [List.foldl_cons]
    exact le_trans (length_le_applyRule D text) (ih (applyRule text D))

end DocsPre
